import Mathlib

/-!
Verification of the Turtle trading strategy repository
(`Backtest_Turtule_trading_Stratgy_C.py`, `Turtule_trading_Stratgy_C.py`).

The backtester's mutable state (`self.cash`, `self.positions`,
`self.trade_history`) is embedded as `BState`; prices and capital are
rationals (all the Python arithmetic on them is field arithmetic, so ℚ is an
exact model; the one square root in the source, `sqrt(90)` inside the
volatility scaling, is handled by an explicit oracle field documented at
`DayData.sigma`).  Timestamps (`date`, `entry_date`, `entry_time`) are not
modelled: they are only copied into log rows and no claim depends on them.
-/

namespace Turtle

/-- Position side, the `side` strings LONG / SHORT of the source. -/
inductive Side where
  | LONG
  | SHORT
deriving DecidableEq, Repr

/-- Trade-record action, the `action` strings OPEN / CLOSE of the source. -/
inductive Action where
  | OPEN
  | CLOSE
deriving DecidableEq, Repr

/-- One OHLCV row as used by the strategy: only `high`, `low` and `close`
are ever read by the signal and volatility code. -/
structure Candle where
  high : ℚ
  low : ℚ
  close : ℚ
deriving DecidableEq, Repr

/-- The per-coin settings dict built at
`Backtest_Turtule_trading_Stratgy_C.py` lines 287-291 (and read with
`settings.get(...)`, default leverage 1, in `simulate_open`); the keys are
always present in the dict the driver builds, so they are plain fields. -/
structure CoinSettings where
  long_only : Bool
  long_leverage : ℚ
  short_leverage : ℚ
deriving DecidableEq, Repr

/-- A position key: the `"{ticker}-{period}"` string of the source,
represented structurally as the (ticker, period) pair it encodes. -/
abbrev PosKey := String × Nat

/-- The position dict stored at `simulate_open` line 425:
`{'side', 'amount', 'entry_price', 'leverage', 'entry_date', 'ticker'}`
(entry date not modelled). -/
structure Position where
  side : Side
  amount : ℚ
  entry_price : ℚ
  leverage : ℚ
  ticker : String
deriving DecidableEq, Repr

/-- A trade-history row as appended by `simulate_open` / `simulate_close`
(lines 427-431 and 448-452); the `date` column is not modelled. -/
structure Trade where
  ticker : String
  period : Nat
  action : Action
  side : Side
  amount : ℚ
  price : ℚ
  value : ℚ
  leverage : ℚ
  pnl : ℚ
deriving DecidableEq, Repr

/-- The mutable backtester state: `self.cash`, `self.positions` (a dict,
embedded as an association list with unique keys) and `self.trade_history`. -/
structure BState where
  cash : ℚ
  positions : List (PosKey × Position)
  tradeHistory : List Trade
deriving DecidableEq, Repr

/-- Association-list lookup, the `self.positions.get(key)` of the source. -/
def lookupKey (k : PosKey) : List (PosKey × β) → Option β
  | [] => none
  | kp :: rest => if kp.1 = k then some kp.2 else lookupKey k rest

/-- Removal of a key, the effect of `dict.pop` / `del` on the stored map. -/
def eraseKey (k : PosKey) : List (PosKey × β) → List (PosKey × β)
  | [] => []
  | kp :: rest => if kp.1 = k then eraseKey k rest else kp :: eraseKey k rest

/-- Key assignment `d[key] = v`: any previous binding of the key is
replaced (Python dicts keep one value per key). -/
def insertKey (k : PosKey) (v : β) (l : List (PosKey × β)) : List (PosKey × β) :=
  (k, v) :: eraseKey k l

/-- `amount`/`leverage` selection of `simulate_open` line 417 and
`open_position` line 338: side-specific leverage from the settings dict. -/
def levFor (side : Side) (st : CoinSettings) : ℚ :=
  match side with
  | Side.LONG => st.long_leverage
  | Side.SHORT => st.short_leverage

/-- `TurtleStrategyBacktester.simulate_open` (lines 416-432): computes the
notional, deducts the fee from cash, stores the Position under the
(ticker, period) key — overwriting any previous binding, exactly as the
Python dict assignment does — and appends one OPEN trade with `pnl = -fee`. -/
def simulate_open (feeRate : ℚ) (s : BState) (ticker : String) (period : Nat)
    (side : Side) (capital : ℚ) (settings : CoinSettings) (price : ℚ) : BState :=
  let leverage := levFor side settings
  let notional := capital * leverage
  let amount := notional / price
  let fee := notional * feeRate
  let pos : Position := ⟨side, amount, price, leverage, ticker⟩
  { cash := s.cash - fee,
    positions := insertKey (ticker, period) pos s.positions,
    tradeHistory := s.tradeHistory ++
      [⟨ticker, period, Action.OPEN, side, amount, price, notional, leverage, -fee⟩] }

/-- `TurtleStrategyBacktester.simulate_close` (lines 434-453):
`self.positions.pop(position_key)` raises `KeyError` on a missing key, which
is modelled by returning `none`; on a stored position it computes the close
notional, the fee, the directional realized PnL, credits `pnl - fee` to cash,
removes the position and appends one CLOSE trade with `pnl = pnl - fee`. -/
def simulate_close (feeRate : ℚ) (s : BState) (key : PosKey) (price : ℚ) :
    Option BState :=
  match lookupKey key s.positions with
  | none => none
  | some pos =>
    let notional := pos.amount * price * pos.leverage
    let fee := notional * feeRate
    let pnl :=
      match pos.side with
      | Side.LONG => (price - pos.entry_price) * pos.amount * pos.leverage
      | Side.SHORT => (pos.entry_price - price) * pos.amount * pos.leverage
    some { cash := s.cash + pnl - fee,
           positions := eraseKey key s.positions,
           tradeHistory := s.tradeHistory ++
             [⟨pos.ticker, key.2, Action.CLOSE, pos.side, pos.amount, price,
               notional, pos.leverage, pnl - fee⟩] }

/-- The last `n` elements of a list, pandas `.tail(n)`. -/
def lastN (n : Nat) (l : List α) : List α := l.drop (l.length - n)

/-- Simple daily returns, `close.pct_change().dropna()`:
for consecutive closes `a, b` the entry is `b / a - 1`, and the initial
`NaN` row of `pct_change` is dropped. -/
def dailyReturns : List ℚ → List ℚ
  | [] => []
  | [_] => []
  | a :: b :: rest => (b / a - 1) :: dailyReturns (b :: rest)

/-- Arithmetic mean of a list of rationals (0 on the empty list, matching
the `x / 0 = 0` convention; only zero-ness of `devSum` is ever used). -/
def meanQ (l : List ℚ) : ℚ := l.sum / l.length

/-- Sum of squared deviations from the mean.  `daily_returns.std()` (sample
standard deviation, pandas default `ddof=1`) is
`sqrt (devSum l / (l.length - 1))`, and the scaled volatility
`period_90_vol = daily_std * sqrt 90` (line 271 / line 235) is zero exactly
when `devSum l` is zero, for any window with at least two observations (on
fewer, pandas yields `NaN`; the theorems below only use windows of at least
two returns). -/
def devSum (l : List ℚ) : ℚ := (l.map (fun x => (x - meanQ l) * (x - meanQ l))).sum

/-- The backtester's per-tick volatility gate,
`Backtest_Turtule_trading_Stratgy_C.py` lines 263-275: take the last
`volatility_period + 1` closes, compute daily returns, skip the coin when
fewer than `volatility_period - 5` returns are available or when the scaled
90-day volatility (equivalently, `devSum` of the returns) is zero. -/
def backtestVolOk (vp : Nat) (closes : List ℚ) : Bool :=
  let rets := dailyReturns (lastN (vp + 1) closes)
  if rets.length < vp - 5 then false
  else if devSum rets = 0 then false
  else true

/-- `TurtleTradingBot.calculate_volatility` (`Turtule_trading_Stratgy_C.py`
lines 223-240): the bot fetches `volatility_period + 1` daily candles and
returns `None` when the frame is empty or shorter than `volatility_period`
rows; otherwise it returns the scaled volatility
`daily_std * sqrt 90`, modelled here by the proxy `devSum * 90`, which is
zero exactly when the returned value is zero (the only property of the
value the callers test). -/
def calculate_volatility (vp : Nat) (closes : List ℚ) : Option ℚ :=
  if closes.length = 0 ∨ closes.length < vp then none
  else some (devSum (dailyReturns closes) * 90)

/-- The live driver's skip test for an asset,
`Turtule_trading_Stratgy_C.py` line 285: `volatility is None or volatility == 0`. -/
def liveVolSkip (vp : Nat) (closes : List ℚ) : Bool :=
  match calculate_volatility vp closes with
  | none => true
  | some v => v = 0

/-- Maximum of a list of rationals (`max()` / rolling max over the whole
window), 0 on the empty list — the source never evaluates it on an empty
window for any configured period. -/
def maxQ : List ℚ → ℚ
  | [] => 0
  | x :: xs => xs.foldl max x

/-- Minimum of a list of rationals, dual to `maxQ`. -/
def minQ : List ℚ → ℚ
  | [] => 0
  | x :: xs => xs.foldl min x

/-- Last element of a list (`.iloc[-1]`), 0 on the empty list. -/
def lastQ (l : List ℚ) : ℚ := l.getLast?.getD 0

/-- One asset's market data for a tick of the backtester:
`data_until_today` (all candles with timestamp up to the current date) plus
the oracle `sigma` for `period_90_vol = daily_std * sqrt 90` of line 271 —
irrational over ℚ in general, so it is supplied as a field; the driver only
compares it with zero and divides by it, and it is zero exactly when
`devSum` of the volatility-window returns is zero. -/
structure DayData where
  candles : List Candle
  sigma : ℚ

/-- Static configuration of the backtester, read from
`Backtest_Turtule_Config.json` in `__init__`: a missing coin in
`historical_data` is modelled as an empty candle list (both cause the same
immediate skip of the coin). -/
structure Config where
  initialCapital : ℚ
  strategyInvestment : ℚ
  feeRate : ℚ
  volatilityTarget : ℚ
  volatilityPeriod : Nat
  donchianPeriods : List Nat
  activeCoins : List String
  settings : CoinSettings

/-- `base_capital_per_coin` of lines 246 and 390:
`strategy_investment / len(active_coins)` and 0 for no active coins. -/
def baseCapital (cfg : Config) : ℚ :=
  if cfg.activeCoins.isEmpty then 0
  else cfg.strategyInvestment / (cfg.activeCoins.length : ℚ)

/-- `capital_per_period` of lines 277-279:
`(strategy_investment / asset_count) * (volatility_target / period_90_vol)
 / period_count`. -/
def capitalPerPeriod (cfg : Config) (sigma : ℚ) : ℚ :=
  baseCapital cfg * (cfg.volatilityTarget / sigma) / (cfg.donchianPeriods.length : ℚ)

/-- Channel upper bound of lines 299-305: over the last `period + 1`
candles, drop the most recent one and take the rolling max of the `high`
column over the remaining `period` candles. -/
def channelHigh (d : DayData) (p : Nat) : ℚ :=
  maxQ (((lastN (p + 1) d.candles).dropLast).map Candle.high)

/-- Channel lower bound of line 306, dual to `channelHigh`. -/
def channelLow (d : DayData) (p : Nat) : ℚ :=
  minQ (((lastN (p + 1) d.candles).dropLast).map Candle.low)

/-- Signal reference price of line 310: the close of the most recent candle
of the `period + 1` window. -/
def refClose (d : DayData) (p : Nat) : ℚ :=
  lastQ ((lastN (p + 1) d.candles).map Candle.close)

/-- The body of the inner `for period in self.donchian_periods` loop of
`run_backtest` (lines 293-337): data-sufficiency gates, Donchian channel,
entry on a strict breakout when the slot is flat (SHORT only when the asset
is not long-only), exit on a strict midline cross when the slot is open.
`(simulate_close ...).getD s` is exact here: the close is only invoked when
the key is stored, so the `none` (KeyError) branch is unreachable. -/
def processPeriod (cfg : Config) (d : DayData) (coin : String) (cap : ℚ)
    (p : Nat) (s : BState) : BState :=
  if d.candles.length < p + 2 then s
  else if (lastN (p + 1) d.candles).length < p + 1 then s
  else
    let high := channelHigh d p
    let low := channelLow d p
    let mid := (high + low) / 2
    let lastClose := refClose d p
    match lookupKey (coin, p) s.positions with
    | none =>
      if lastClose > high then
        simulate_open cfg.feeRate s coin p Side.LONG cap cfg.settings lastClose
      else if cfg.settings.long_only = false ∧ lastClose < low then
        simulate_open cfg.feeRate s coin p Side.SHORT cap cfg.settings lastClose
      else s
    | some pos =>
      if pos.side = Side.LONG ∧ lastClose < mid then
        (simulate_close cfg.feeRate s (coin, p) lastClose).getD s
      else if pos.side = Side.SHORT ∧ lastClose > mid then
        (simulate_close cfg.feeRate s (coin, p) lastClose).getD s
      else s

/-- The body of the `for coin in self.active_coins` loop of `run_backtest`
(lines 248-337): skip on depleted base capital, missing/empty data, a short
volatility window, or zero scaled volatility; otherwise size the per-period
capital by the volatility-target ratio and run every configured period. -/
def processCoin (cfg : Config) (d : DayData) (coin : String) (s : BState) : BState :=
  if baseCapital cfg ≤ 0 then s
  else if d.candles.isEmpty then s
  else if (dailyReturns (lastN (cfg.volatilityPeriod + 1)
            (d.candles.map Candle.close))).length < cfg.volatilityPeriod - 5 then s
  else if d.sigma = 0 then s
  else
    cfg.donchianPeriods.foldl
      (fun acc p => processPeriod cfg d coin (capitalPerPeriod cfg d.sigma) p acc) s

/-- One simulated day of `run_backtest`: every active coin is processed in
configuration order against that day's data. -/
def processTick (cfg : Config) (data : String → DayData) (s : BState) : BState :=
  cfg.activeCoins.foldl (fun acc coin => processCoin cfg (data coin) coin acc) s

/-- The state the backtester starts from (`__init__` lines 135-138). -/
def initState (cfg : Config) : BState :=
  { cash := cfg.initialCapital, positions := [], tradeHistory := [] }

/-- The states reachable by the backtest tick loop from the initial state,
under arbitrary market data for each day. -/
inductive Reachable (cfg : Config) : BState → Prop where
  | init : Reachable cfg (initState cfg)
  | tick : ∀ (s : BState) (data : String → DayData),
      Reachable cfg s → Reachable cfg (processTick cfg data s)

/-- Sum of the `pnl` column over a list of trades. -/
def sumPnl (ts : List Trade) : ℚ := (ts.map Trade.pnl).sum

/-- Unrealized PnL of an open position against a mark price
(lines 404-408). -/
def unrealizedPnl (pos : Position) (price : ℚ) : ℚ :=
  match pos.side with
  | Side.LONG => (price - pos.entry_price) * pos.amount * pos.leverage
  | Side.SHORT => (pos.entry_price - price) * pos.amount * pos.leverage

/-- The `per_coin_values` dict as first initialized at lines 390-393: each
active coin maps to its base capital plus its realized PnL.  The Python
dict is keyed by ticker; under distinct active coins this list has the same
bindings in configuration order. -/
def perCoinInit (cfg : Config) (ts : List Trade) : List (String × ℚ) :=
  cfg.activeCoins.map
    (fun c => (c, baseCapital cfg + sumPnl (ts.filter (fun tr => decide (tr.ticker = c)))))

/-- `per_coin_values[ticker] += u` of line 412: add `u` to the binding of
`t` when present, do nothing when the ticker is not an active coin. -/
def bump (per : List (String × ℚ)) (t : String) (u : ℚ) : List (String × ℚ) :=
  per.map (fun cv => if cv.1 = t then (cv.1, cv.2 + u) else cv)

/-- One iteration of the `for key, pos in self.positions.items()` loop of
lines 396-412: skip the position when its ticker has no observable mark
price for the date (ticker missing from `historical_data`, or the date
missing from its index — both modelled by `priceOf` returning `none`);
otherwise add the unrealized PnL to the running total and, when the ticker
is an active coin, to its per-coin value. -/
def addUnreal (priceOf : String → Option ℚ) (acc : ℚ × List (String × ℚ))
    (kp : PosKey × Position) : ℚ × List (String × ℚ) :=
  match priceOf kp.1.1 with
  | none => acc
  | some price =>
    (acc.1 + unrealizedPnl kp.2 price, bump acc.2 kp.1.1 (unrealizedPnl kp.2 price))

/-- `TurtleStrategyBacktester.calculate_portfolio_value` (lines 378-414):
total strategy equity starts from the fixed strategy investment plus all
realized trade PnL; per-coin values start from base capital plus the
coin-filtered realized PnL; every open position with an observable mark
price then contributes its unrealized PnL to both. -/
def calculate_portfolio_value (cfg : Config) (s : BState)
    (priceOf : String → Option ℚ) : ℚ × List (String × ℚ) :=
  s.positions.foldl (addUnreal priceOf)
    (cfg.strategyInvestment + sumPnl s.tradeHistory, perCoinInit cfg s.tradeHistory)

/-- Sum of the values of a per-coin equity mapping. -/
def sumSnd (l : List (String × ℚ)) : ℚ := (l.map Prod.snd).sum

/-- `TurtleTradingBot.get_donchian_channel` (`Turtule_trading_Stratgy_C.py`
lines 242-267): fetches `period + 2` daily candles and returns all-`None`
when fewer are available; otherwise drops the current (incomplete) candle,
takes the channel over the last `period` completed candles and returns
(upper, lower, midline, last completed close). -/
def get_donchian_channel (p : Nat) (ohlcv : List Candle) :
    Option (ℚ × ℚ × ℚ × ℚ) :=
  if ohlcv.length < p + 2 then none
  else
    let completed := ohlcv.dropLast
    let ch := lastN p completed
    let high := maxQ (ch.map Candle.high)
    let low := minQ (ch.map Candle.low)
    some (high, low, (high + low) / 2, lastQ (completed.map Candle.close))

/-- A live-bot position as stored in `self.current_positions`
(`open_position` lines 362-368; `entry_time` not modelled). -/
structure LPosition where
  side : Side
  amount : ℚ
  entry_price : ℚ
  leverage : ℚ
deriving DecidableEq, Repr

/-- The order response of `create_market_order`: the fields the bot reads. -/
structure Order where
  amount : ℚ
  price : ℚ
  cost : ℚ
deriving DecidableEq, Repr

/-- A row of the live trading CSV log (`add_csv_log`; timestamp not
modelled; a missing `pnl` key defaults to 0). -/
structure LogRow where
  ticker : String
  period : Nat
  action : Action
  side : Side
  amount : ℚ
  price : ℚ
  value : ℚ
  leverage : ℚ
  pnl : ℚ
deriving DecidableEq, Repr

/-- The live bot's mutable trading state: the persisted position map and
the trade-record log. -/
structure LState where
  current_positions : List (PosKey × LPosition)
  tradingLog : List LogRow
deriving DecidableEq, Repr

/-- `TurtleTradingBot.open_position` (lines 336-380).  The two collaborator
calls are passed as oracle results: `current_price` from
`GetCoinNowPrice` and `orderResult` from `create_market_order` (`none`
models the call raising, which the surrounding `except` turns into a bare
return).  A non-positive price or a failed order leaves the state
untouched; a successful order stores the position (overwriting any previous
binding of the key, as the dict assignment does) and appends one OPEN log
row, in the same protected block. -/
def open_position (s : LState) (ticker : String) (period : Nat) (side : Side)
    (_capital : ℚ) (settings : CoinSettings) (current_price : ℚ)
    (orderResult : Option Order) : LState :=
  if current_price ≤ 0 then s
  else
    match orderResult with
    | none => s
    | some order =>
      let leverage := levFor side settings
      { current_positions :=
          insertKey (ticker, period) ⟨side, order.amount, order.price, leverage⟩
            s.current_positions,
        tradingLog := s.tradingLog ++
          [⟨ticker, period, Action.OPEN, side, order.amount, order.price,
            order.cost, leverage, 0⟩] }

/-- The realized-PnL formula of `close_position` lines 403-406: directional
PnL of the caller-supplied position data against the executed price. -/
def closePnl (pd : LPosition) (price : ℚ) : ℚ :=
  match pd.side with
  | Side.LONG => (price - pd.entry_price) * pd.amount * pd.leverage
  | Side.SHORT => (pd.entry_price - price) * pd.amount * pd.leverage

/-- `TurtleTradingBot.close_position` (lines 382-423), with the same two
oracle inputs as `open_position`.  A non-positive price or failed order
leaves the state untouched.  On a successful order the bot computes the
realized PnL from the caller-supplied position data, then executes
`del self.current_positions[key]`: on a missing key the `del` raises
`KeyError`, which the surrounding `except` catches, so the state is again
left untouched and no log row is written; on a stored key the removal and
the CLOSE log row are committed together. -/
def close_position (s : LState) (ticker : String) (period : Nat)
    (pd : LPosition) (current_price : ℚ) (orderResult : Option Order) : LState :=
  if current_price ≤ 0 then s
  else
    match orderResult with
    | none => s
    | some order =>
      let pnl := closePnl pd order.price
      match lookupKey (ticker, period) s.current_positions with
      | none => s
      | some _ =>
        { current_positions := eraseKey (ticker, period) s.current_positions,
          tradingLog := s.tradingLog ++
            [⟨ticker, period, Action.CLOSE, pd.side, order.amount, order.price,
              order.cost, pd.leverage, pnl⟩] }

/-- The two-state key automaton of the Position Ledger: FLAT (`false`)
accepts OPEN, OPEN (`true`) accepts CLOSE, anything else is invalid. -/
def stepTrail (acc : Option Bool) (a : Action) : Option Bool :=
  match acc, a with
  | some false, Action.OPEN => some true
  | some true, Action.CLOSE => some false
  | _, _ => none

/-- Run a key's recorded action sequence through the ledger automaton
starting from FLAT; `some b` means the sequence is a legal alternation
OPEN, CLOSE, OPEN, ... ending in state `b`. -/
def runTrail (acts : List Action) : Option Bool := acts.foldl stepTrail (some false)

/-- The (ticker, period) key a trade record belongs to. -/
def keyOf (t : Trade) : PosKey := (t.ticker, t.period)

/-- The action sequence recorded for one key, in trade-history order. -/
def actionsFor (key : PosKey) (ts : List Trade) : List Action :=
  (ts.filter (fun t => decide (keyOf t = key))).map Trade.action

/-- The ledger invariant maintained by the backtest loop: position keys are
unique; stored positions carry the key's ticker and only active coins;
recorded trades only concern active coins; and for every key the recorded
action sequence is a legal OPEN/CLOSE alternation whose final automaton
state agrees with whether the key currently holds a position. -/
def Inv (cfg : Config) (s : BState) : Prop :=
  (s.positions.map Prod.fst).Nodup ∧
  (∀ kp ∈ s.positions, kp.1.1 ∈ cfg.activeCoins ∧ kp.2.ticker = kp.1.1) ∧
  (∀ t ∈ s.tradeHistory, t.ticker ∈ cfg.activeCoins) ∧
  (∀ key : PosKey, runTrail (actionsFor key s.tradeHistory)
      = some (lookupKey key s.positions).isSome)

/-- The reconciliation invariant carried through the positions fold of
`calculate_portfolio_value`: the per-coin keys are exactly the active coins
and the running total equals the sum of the per-coin values. -/
def PVInv (cfg : Config) (acc : ℚ × List (String × ℚ)) : Prop :=
  acc.2.map Prod.fst = cfg.activeCoins ∧ acc.1 = sumSnd acc.2

/-- A small demonstration configuration: one active coin, one Donchian
period, used to exercise the claims on a concrete two-day trace. -/
def cfgD : Config :=
  { initialCapital := 2000, strategyInvestment := 1000, feeRate := 1/1000,
    volatilityTarget := 1/4, volatilityPeriod := 6, donchianPeriods := [3],
    activeCoins := ["BTC"], settings := ⟨false, 5, 3⟩ }

/-- Day-one data: the final close 106 breaks above the channel upper bound
102, triggering a LONG entry. -/
def dayA : DayData :=
  { candles := [⟨90, 80, 100⟩, ⟨95, 85, 101⟩, ⟨102, 90, 102⟩, ⟨101, 91, 103⟩,
      ⟨999, 1, 106⟩],
    sigma := 1/2 }

/-- Day-two data: the final close 80 falls below the midline 500,
triggering the LONG exit. -/
def dayB : DayData :=
  { candles := dayA.candles ++ [⟨70, 60, 80⟩], sigma := 1/2 }

/-- Day-one data feed (every coin sees `dayA`). -/
def dataA : String → DayData := fun _ => dayA

/-- Day-two data feed. -/
def dataB : String → DayData := fun _ => dayB

/-- State after the first simulated day: one open LONG position. -/
def s1D : BState := processTick cfgD dataA (initState cfgD)

/-- State after the second simulated day: the position has been closed. -/
def s2D : BState := processTick cfgD dataB s1D

/-- The position opened on day one. -/
def posD : Position := ⟨Side.LONG, 1250/53, 106, 5, "BTC"⟩

/-- A placeholder trade used only as the default of `List.headD`. -/
def junkTrade : Trade := ⟨"", 0, Action.OPEN, Side.LONG, 0, 0, 0, 0, 0⟩

/-- The first trade recorded on day one (the LONG entry). -/
def openTradeD : Trade :=
  ((processTick cfgD dataA (initState cfgD)).tradeHistory.drop
    ((initState cfgD).tradeHistory.length)).headD junkTrade

/-- The constant mark-price feed used by the demonstration snapshot. -/
def priceD : String → Option ℚ := fun _ => some 90

/-- A price history of 86 daily closes (85 daily returns) alternating
between 1 and 2, hence with plainly non-zero volatility. -/
def closes86 : List ℚ := (List.range 86).map (fun i => if i % 2 = 0 then (1 : ℚ) else 2)

/-- A price history of 81 daily closes (80 daily returns). -/
def closes81 : List ℚ := (List.range 81).map (fun i => if i % 2 = 0 then (1 : ℚ) else 2)

/-- A window of exactly four candles, one fewer than the live bot's
Donchian gate requires for period 3. -/
def fourCandles : List Candle := [⟨10, 1, 5⟩, ⟨11, 2, 6⟩, ⟨12, 3, 7⟩, ⟨13, 4, 100⟩]

/-- The coin settings of the C5 scenario: leverage 5 on the long side. -/
def c5settings : CoinSettings := ⟨false, 5, 3⟩

/-- The empty ledger state the C5 scenario starts from. -/
def c5base : BState := ⟨0, [], []⟩

/-- The C5 scenario entry: open LONG with capital 1000 at price 50 under
fee rate `fee`. -/
def c5open (fee : ℚ) : BState :=
  simulate_open fee c5base "X" 20 Side.LONG 1000 c5settings 50

/-- The C5 scenario run with zero fees, closed at price 55. -/
def c5closed : Option BState := simulate_close 0 (c5open 0) ("X", 20) 55

/-- Day data with a tie: the reference close 102 equals the channel upper
bound 102 for period 3. -/
def dTie : DayData :=
  { candles := [⟨90, 80, 100⟩, ⟨95, 85, 101⟩, ⟨102, 90, 102⟩, ⟨101, 91, 103⟩,
      ⟨50, 40, 102⟩],
    sigma := 1/2 }

/-- The live-bot state holding one open LONG slot, for the witnesses. -/
def lsW : LState := ⟨[(("BTC", 5), ⟨Side.LONG, 1, 100, 5⟩)], []⟩

/-- The stored position of `lsW`. -/
def lposW : LPosition := ⟨Side.LONG, 1, 100, 5⟩

/-- A concrete order response used by the witnesses. -/
def ordW : Order := ⟨1, 110, 110⟩

/-- The ledger state after opening ("X", 5) LONG at price 10. -/
def c9s1 : BState := simulate_open 0 c5base "X" 5 Side.LONG 100 c5settings 10

/-- The same key opened again, at price 20, without an intervening close. -/
def c9s2 : BState := simulate_open 0 c9s1 "X" 5 Side.LONG 100 c5settings 20

/-- The empty live-bot state. -/
def lsEmpty : LState := ⟨[], []⟩

section KeyLemmas

variable {β : Type}

theorem lookup_erase_self (k : PosKey) (l : List (PosKey × β)) :
    lookupKey k (eraseKey k l) = none := by
  induction l with
  | nil => rfl
  | cons kp rest ih =>
    by_cases h : kp.1 = k
    · simpa [eraseKey, h] using ih
    · simp [eraseKey, h, lookupKey, ih]

theorem lookup_erase_ne {k k' : PosKey} (h : k' ≠ k) (l : List (PosKey × β)) :
    lookupKey k' (eraseKey k l) = lookupKey k' l := by
  induction l with
  | nil => rfl
  | cons kp rest ih =>
    by_cases hk : kp.1 = k
    · have hne : kp.1 ≠ k' := fun hc => h (hc ▸ hk)
      simp only [eraseKey, if_pos hk, lookupKey, if_neg hne]
      exact ih
    · by_cases hk' : kp.1 = k'
      · simp only [eraseKey, if_neg hk, lookupKey, if_pos hk']
      · simp only [eraseKey, if_neg hk, lookupKey, if_neg hk']
        exact ih

theorem lookup_insert_self (k : PosKey) (v : β) (l : List (PosKey × β)) :
    lookupKey k (insertKey k v l) = some v := by
  simp [insertKey, lookupKey]

theorem lookup_insert_ne {k k' : PosKey} (h : k' ≠ k) (v : β)
    (l : List (PosKey × β)) :
    lookupKey k' (insertKey k v l) = lookupKey k' l := by
  have : k ≠ k' := fun hc => h hc.symm
  simp [insertKey, lookupKey, this, lookup_erase_ne h]

theorem mem_erase {kp : PosKey × β} {k : PosKey} {l : List (PosKey × β)}
    (h : kp ∈ eraseKey k l) : kp ∈ l := by
  induction l with
  | nil => simp [eraseKey] at h
  | cons hd rest ih =>
    by_cases hk : hd.1 = k
    · simp only [eraseKey, if_pos hk] at h
      exact List.mem_cons_of_mem hd (ih h)
    · simp only [eraseKey, if_neg hk, List.mem_cons] at h
      rcases h with h | h
      · exact h ▸ List.mem_cons_self hd rest
      · exact List.mem_cons_of_mem hd (ih h)

theorem mem_insert {kp : PosKey × β} {k : PosKey} {v : β}
    {l : List (PosKey × β)} (h : kp ∈ insertKey k v l) :
    kp = (k, v) ∨ kp ∈ l := by
  simp only [insertKey, List.mem_cons] at h
  rcases h with h | h
  · exact Or.inl h
  · exact Or.inr (mem_erase h)

theorem keys_erase_subset {a : PosKey} {k : PosKey} {l : List (PosKey × β)}
    (h : a ∈ (eraseKey k l).map Prod.fst) : a ∈ l.map Prod.fst := by
  rcases List.mem_map.mp h with ⟨kp, hkp, rfl⟩
  exact List.mem_map.mpr ⟨kp, mem_erase hkp, rfl⟩

theorem key_not_mem_erase (k : PosKey) (l : List (PosKey × β)) :
    k ∉ (eraseKey k l).map Prod.fst := by
  induction l with
  | nil => simp [eraseKey]
  | cons hd rest ih =>
    by_cases hk : hd.1 = k
    · simpa [eraseKey, hk] using ih
    · simp only [eraseKey, if_neg hk, List.map_cons, List.mem_cons]
      rintro (hc | hc)
      · exact hk hc.symm
      · exact ih hc

theorem keys_nodup_erase {k : PosKey} {l : List (PosKey × β)}
    (h : (l.map Prod.fst).Nodup) : ((eraseKey k l).map Prod.fst).Nodup := by
  induction l with
  | nil => simp [eraseKey]
  | cons hd rest ih =>
    simp only [List.map_cons, List.nodup_cons] at h
    by_cases hk : hd.1 = k
    · simpa [eraseKey, hk] using ih h.2
    · simp only [eraseKey, if_neg hk, List.map_cons, List.nodup_cons]
      exact ⟨fun hc => h.1 (keys_erase_subset hc), ih h.2⟩

theorem keys_nodup_insert {k : PosKey} (v : β) {l : List (PosKey × β)}
    (h : (l.map Prod.fst).Nodup) :
    ((insertKey k v l).map Prod.fst).Nodup := by
  simp only [insertKey, List.map_cons, List.nodup_cons]
  exact ⟨key_not_mem_erase k l, keys_nodup_erase h⟩

theorem lookup_mem {k : PosKey} {v : β} {l : List (PosKey × β)}
    (h : lookupKey k l = some v) : (k, v) ∈ l := by
  induction l with
  | nil => simp [lookupKey] at h
  | cons hd rest ih =>
    by_cases hk : hd.1 = k
    · simp only [lookupKey, if_pos hk, Option.some.injEq] at h
      have : hd = (k, v) := by
        cases hd
        simp_all
      exact this ▸ List.mem_cons_self hd rest
    · simp only [lookupKey, if_neg hk] at h
      exact List.mem_cons_of_mem hd (ih h)

end KeyLemmas

theorem runTrail_append (l : List Action) (a : Action) :
    runTrail (l ++ [a]) = stepTrail (runTrail l) a := by
  simp [runTrail, List.foldl_append]

theorem actionsFor_append_match {key : PosKey} {t : Trade}
    (h : keyOf t = key) (ts : List Trade) :
    actionsFor key (ts ++ [t]) = actionsFor key ts ++ [t.action] := by
  simp [actionsFor, List.filter_append, h]

theorem actionsFor_append_other {key : PosKey} {t : Trade}
    (h : keyOf t ≠ key) (ts : List Trade) :
    actionsFor key (ts ++ [t]) = actionsFor key ts := by
  simp [actionsFor, List.filter_append, h]

theorem runTrail_actionsFor_append (key : PosKey) (t : Trade) (ts : List Trade) :
    runTrail (actionsFor key (ts ++ [t]))
      = if keyOf t = key then stepTrail (runTrail (actionsFor key ts)) t.action
        else runTrail (actionsFor key ts) := by
  by_cases h : keyOf t = key
  · rw [actionsFor_append_match h, runTrail_append, if_pos h]
  · rw [actionsFor_append_other h, if_neg h]

theorem inv_open {cfg : Config} {fee : ℚ} {s : BState} {ticker : String}
    {period : Nat} {side : Side} {cap : ℚ} {st : CoinSettings} {price : ℚ}
    (hInv : Inv cfg s) (hcoin : ticker ∈ cfg.activeCoins)
    (hflat : lookupKey (ticker, period) s.positions = none) :
    Inv cfg (simulate_open fee s ticker period side cap st price) := by
  obtain ⟨hnd, hpos, htr, htrail⟩ := hInv
  refine ⟨?_, ?_, ?_, ?_⟩
  · exact keys_nodup_insert _ hnd
  · intro kp hkp
    rcases mem_insert hkp with h | h
    · subst h
      exact ⟨hcoin, rfl⟩
    · exact hpos kp h
  · intro t ht
    rcases List.mem_append.mp ht with h | h
    · exact htr t h
    · simp only [List.mem_singleton] at h
      subst h
      exact hcoin
  · intro key
    by_cases hkey : key = (ticker, period)
    · subst hkey
      have h1 := htrail (ticker, period)
      simp [simulate_open, runTrail_actionsFor_append, keyOf,
        lookup_insert_self, hflat, h1, stepTrail]
    · have h1 := htrail key
      have hne : ((ticker : String), (period : Nat)) ≠ key := fun hc => hkey hc.symm
      simp [simulate_open, runTrail_actionsFor_append, keyOf,
        lookup_insert_ne hkey, if_neg hne, h1]

theorem inv_close {cfg : Config} {fee : ℚ} {s : BState} {key : PosKey}
    {price : ℚ} {pos : Position} {s' : BState}
    (hInv : Inv cfg s) (hpos : lookupKey key s.positions = some pos)
    (hs' : simulate_close fee s key price = some s') : Inv cfg s' := by
  obtain ⟨hnd, hposm, htr, htrail⟩ := hInv
  have hmem := hposm (key, pos) (lookup_mem hpos)
  simp only [simulate_close, hpos, Option.some.injEq] at hs'
  subst hs'
  refine ⟨?_, ?_, ?_, ?_⟩
  · exact keys_nodup_erase hnd
  · intro kp hkp
    exact hposm kp (mem_erase hkp)
  · intro t ht
    rcases List.mem_append.mp ht with h | h
    · exact htr t h
    · simp only [List.mem_singleton] at h
      subst h
      show pos.ticker ∈ cfg.activeCoins
      have hm2 : pos.ticker = key.1 := hmem.2
      rw [hm2]
      exact hmem.1
  · intro key'
    have hm2 : pos.ticker = key.1 := hmem.2
    by_cases hkey : key' = key
    · subst hkey
      have h1 := htrail key'
      simp [runTrail_actionsFor_append, keyOf, hm2, lookup_erase_self,
        hpos, h1, stepTrail]
    · have h1 := htrail key'
      have hne : ((key.1 : String), (key.2 : Nat)) ≠ key' :=
        fun hc => hkey (hc.symm.trans Prod.mk.eta)
      simp [runTrail_actionsFor_append, keyOf, hm2, if_neg hne,
        lookup_erase_ne hkey, h1]

theorem close_total {fee : ℚ} {s : BState} {key : PosKey} {price : ℚ}
    {pos : Position} (hpos : lookupKey key s.positions = some pos) :
    ∃ s', simulate_close fee s key price = some s' := by
  simp only [simulate_close, hpos]
  exact ⟨_, rfl⟩

theorem inv_processPeriod {cfg : Config} {d : DayData} {coin : String}
    {cap : ℚ} {p : Nat} {s : BState}
    (hInv : Inv cfg s) (hcoin : coin ∈ cfg.activeCoins) :
    Inv cfg (processPeriod cfg d coin cap p s) := by
  by_cases h1 : d.candles.length < p + 2
  · simpa only [processPeriod, if_pos h1] using hInv
  by_cases h2 : (lastN (p + 1) d.candles).length < p + 1
  · simpa only [processPeriod, if_neg h1, if_pos h2] using hInv
  cases hmatch : lookupKey (coin, p) s.positions with
  | none =>
    simp only [processPeriod, if_neg h1, if_neg h2, hmatch]
    split_ifs with hsig1 hsig2
    · exact inv_open hInv hcoin hmatch
    · exact inv_open hInv hcoin hmatch
    · exact hInv
  | some pos =>
    simp only [processPeriod, if_neg h1, if_neg h2, hmatch]
    obtain ⟨s', hs'⟩ :=
      @close_total cfg.feeRate s (coin, p) (refClose d p) pos hmatch
    split_ifs with hsig1 hsig2
    · rw [hs']
      exact inv_close hInv hmatch hs'
    · rw [hs']
      exact inv_close hInv hmatch hs'
    · exact hInv

theorem foldl_pres {α : Type} (P : BState → Prop) (g : BState → α → BState) :
    ∀ (l : List α) (s : BState),
      (∀ x ∈ l, ∀ t, P t → P (g t x)) → P s → P (l.foldl g s) := by
  intro l
  induction l with
  | nil =>
    intro s _ hs
    exact hs
  | cons x xs ih =>
    intro s h hs
    exact ih (g s x) (fun y hy t ht => h y (List.mem_cons_of_mem x hy) t ht)
      (h x (List.mem_cons_self x xs) s hs)

theorem inv_processCoin {cfg : Config} {d : DayData} {coin : String}
    {s : BState} (hInv : Inv cfg s) (hcoin : coin ∈ cfg.activeCoins) :
    Inv cfg (processCoin cfg d coin s) := by
  rw [processCoin]
  split_ifs
  · exact hInv
  · exact hInv
  · exact hInv
  · exact hInv
  · exact foldl_pres (Inv cfg) _ cfg.donchianPeriods s
      (fun p _ t ht => inv_processPeriod ht hcoin) hInv

theorem inv_processTick {cfg : Config} {data : String → DayData} {s : BState}
    (hInv : Inv cfg s) : Inv cfg (processTick cfg data s) := by
  exact foldl_pres (Inv cfg) _ cfg.activeCoins s
    (fun coin hcoin t ht => inv_processCoin ht hcoin) hInv

theorem inv_init (cfg : Config) : Inv cfg (initState cfg) := by
  refine ⟨?_, ?_, ?_, ?_⟩
  · simp [initState]
  · intro kp hkp
    simp [initState] at hkp
  · intro t ht
    simp [initState] at ht
  · intro key
    simp [initState, actionsFor, runTrail, lookupKey]

theorem inv_reachable {cfg : Config} {s : BState} (h : Reachable cfg s) :
    Inv cfg s := by
  induction h with
  | init => exact inv_init cfg
  | tick s data _ ih => exact inv_processTick ih

theorem sumPnl_cons (t : Trade) (ts : List Trade) :
    sumPnl (t :: ts) = t.pnl + sumPnl ts := by
  simp [sumPnl]

theorem list_sum_map_add (l : List String) (f g : String → ℚ) :
    (l.map (fun c => f c + g c)).sum = (l.map f).sum + (l.map g).sum := by
  induction l with
  | nil => simp
  | cons c cs ih =>
    simp only [List.map_cons, List.sum_cons, ih]
    ring

theorem sum_if_zero_of_not_mem {coins : List String} {x : String} (v : ℚ)
    (hx : x ∉ coins) :
    ((coins.map (fun c => if x = c then v else 0)).sum) = 0 := by
  induction coins with
  | nil => simp
  | cons c cs ih =>
    have hxc : x ≠ c := fun hc => hx (hc ▸ List.mem_cons_self c cs)
    have hxs : x ∉ cs := fun hc => hx (List.mem_cons_of_mem c hc)
    simp [hxc, ih hxs]

theorem sum_if_single {coins : List String} {x : String} (v : ℚ)
    (hnd : coins.Nodup) (hx : x ∈ coins) :
    ((coins.map (fun c => if x = c then v else 0)).sum) = v := by
  induction coins with
  | nil => simp at hx
  | cons c cs ih =>
    simp only [List.nodup_cons] at hnd
    rcases List.mem_cons.mp hx with h | h
    · subst h
      simp [sum_if_zero_of_not_mem v hnd.1]
    · have hxc : x ≠ c := fun hc => hnd.1 (hc ▸ h)
      simp [hxc, ih hnd.2 h]

theorem trades_split_sum (coins : List String) (ts : List Trade)
    (hnd : coins.Nodup) (hval : ∀ t ∈ ts, t.ticker ∈ coins) :
    ((coins.map
        (fun c => sumPnl (ts.filter (fun tr => decide (tr.ticker = c))))).sum)
      = sumPnl ts := by
  induction ts with
  | nil => simp [sumPnl]
  | cons t ts ih =>
    have step : ∀ c : String,
        sumPnl ((t :: ts).filter (fun tr => decide (tr.ticker = c)))
          = (if t.ticker = c then t.pnl else 0)
            + sumPnl (ts.filter (fun tr => decide (tr.ticker = c))) := by
      intro c
      by_cases h : t.ticker = c
      · simp [List.filter_cons, h, sumPnl_cons]
      · simp [List.filter_cons, h]
    have hrec := ih (fun u hu => hval u (List.mem_cons_of_mem t hu))
    calc ((coins.map
            (fun c => sumPnl ((t :: ts).filter (fun tr => decide (tr.ticker = c))))).sum)
        = ((coins.map (fun c => (if t.ticker = c then t.pnl else 0)
            + sumPnl (ts.filter (fun tr => decide (tr.ticker = c))))).sum) := by
          congr 1
          exact List.map_congr_left (fun c _ => step c)
      _ = ((coins.map (fun c => if t.ticker = c then t.pnl else 0)).sum)
            + ((coins.map
                (fun c => sumPnl (ts.filter (fun tr => decide (tr.ticker = c))))).sum) :=
          list_sum_map_add coins _ _
      _ = t.pnl + sumPnl ts := by
          rw [sum_if_single t.pnl hnd (hval t (List.mem_cons_self t ts)), hrec]
      _ = sumPnl (t :: ts) := (sumPnl_cons t ts).symm

theorem map_fst_pair (g : String → ℚ) (l : List String) :
    ((l.map (fun c => (c, g c))).map Prod.fst) = l := by
  induction l with
  | nil => rfl
  | cons c cs ih => simp [ih]

theorem map_snd_pair (g : String → ℚ) (l : List String) :
    ((l.map (fun c => (c, g c))).map Prod.snd) = l.map g := by
  induction l with
  | nil => rfl
  | cons c cs ih => simp [ih]

theorem perCoinInit_keys (cfg : Config) (ts : List Trade) :
    (perCoinInit cfg ts).map Prod.fst = cfg.activeCoins := by
  rw [perCoinInit, map_fst_pair]

theorem isEmpty_false_of_ne_nil {l : List String} (h : l ≠ []) :
    l.isEmpty = false := by
  cases hc : l with
  | nil => exact absurd hc h
  | cons a as => rfl

theorem perCoinInit_sum (cfg : Config) (ts : List Trade)
    (hne : cfg.activeCoins ≠ []) (hnd : cfg.activeCoins.Nodup)
    (hval : ∀ t ∈ ts, t.ticker ∈ cfg.activeCoins) :
    sumSnd (perCoinInit cfg ts) = cfg.strategyInvestment + sumPnl ts := by
  have hlen : (cfg.activeCoins.length : ℚ) ≠ 0 :=
    Nat.cast_ne_zero.mpr (List.length_pos.mpr hne).ne'
  have hbase : ((cfg.activeCoins.map (fun _ => baseCapital cfg)).sum)
      = cfg.strategyInvestment := by
    rw [List.map_const', List.sum_replicate, nsmul_eq_mul]
    rw [baseCapital, isEmpty_false_of_ne_nil hne]
    simp only [Bool.false_eq_true, if_false]
    field_simp
  calc sumSnd (perCoinInit cfg ts)
      = ((cfg.activeCoins.map (fun c => baseCapital cfg
          + sumPnl (ts.filter (fun tr => decide (tr.ticker = c))))).sum) := by
        rw [sumSnd, perCoinInit, map_snd_pair]
    _ = ((cfg.activeCoins.map (fun _ => baseCapital cfg)).sum)
          + ((cfg.activeCoins.map
              (fun c => sumPnl (ts.filter (fun tr => decide (tr.ticker = c))))).sum) :=
        list_sum_map_add cfg.activeCoins _ _
    _ = cfg.strategyInvestment + sumPnl ts := by
        rw [hbase, trades_split_sum cfg.activeCoins ts hnd hval]

theorem bump_keys (per : List (String × ℚ)) (t : String) (u : ℚ) :
    (bump per t u).map Prod.fst = per.map Prod.fst := by
  induction per with
  | nil => rfl
  | cons hd rest ih =>
    by_cases h : hd.1 = t
    · simp only [bump, List.map_cons, if_pos h] at *
      simp [ih]
    · simp only [bump, List.map_cons, if_neg h] at *
      simp [ih]

theorem bump_noop {per : List (String × ℚ)} {t : String} (u : ℚ)
    (h : t ∉ per.map Prod.fst) : bump per t u = per := by
  induction per with
  | nil => rfl
  | cons hd rest ih =>
    simp only [List.map_cons, List.mem_cons] at h
    push_neg at h
    have hne : hd.1 ≠ t := fun hc => h.1 hc.symm
    simp only [bump, List.map_cons, if_neg hne] at *
    simp [ih h.2]

theorem bump_sum {per : List (String × ℚ)} {t : String} (u : ℚ)
    (hnd : (per.map Prod.fst).Nodup) (ht : t ∈ per.map Prod.fst) :
    sumSnd (bump per t u) = sumSnd per + u := by
  induction per with
  | nil => simp at ht
  | cons hd rest ih =>
    simp only [List.map_cons, List.nodup_cons] at hnd
    by_cases h : hd.1 = t
    · have hnotin : t ∉ rest.map Prod.fst := h ▸ hnd.1
      simp only [bump, List.map_cons, if_pos h]
      have : rest.map (fun cv => if cv.1 = t then (cv.1, cv.2 + u) else cv) = rest := by
        simpa [bump] using bump_noop u hnotin
      rw [this]
      simp [sumSnd]
      ring
    · have ht' : t ∈ rest.map Prod.fst := by
        rcases List.mem_cons.mp ht with hc | hc
        · exact absurd hc.symm h
        · exact hc
      simp only [bump, List.map_cons, if_neg h]
      have := ih hnd.2 ht'
      simp only [bump] at this
      simp [sumSnd] at *
      rw [this]
      ring

theorem pv_fold (cfg : Config) (priceOf : String → Option ℚ)
    (hnd : cfg.activeCoins.Nodup) :
    ∀ (l : List (PosKey × Position)),
      (∀ kp ∈ l, kp.1.1 ∈ cfg.activeCoins) →
      ∀ acc, PVInv cfg acc → PVInv cfg (l.foldl (addUnreal priceOf) acc) := by
  intro l
  induction l with
  | nil =>
    intro _ acc hacc
    exact hacc
  | cons kp rest ih =>
    intro hval acc hacc
    refine ih (fun x hx => hval x (List.mem_cons_of_mem kp hx))
      (addUnreal priceOf acc kp) ?_
    rcases hacc with ⟨hkeys, hsum⟩
    cases hp : priceOf kp.1.1 with
    | none => exact ⟨by simp [addUnreal, hp, hkeys], by simp [addUnreal, hp, hsum]⟩
    | some price =>
      constructor
      · simp [addUnreal, hp, bump_keys, hkeys]
      · have hmem : kp.1.1 ∈ acc.2.map Prod.fst := by
          rw [hkeys]
          exact hval kp (List.mem_cons_self kp rest)
        have hnd' : (acc.2.map Prod.fst).Nodup := by
          rw [hkeys]
          exact hnd
        simp only [addUnreal, hp]
        rw [bump_sum _ hnd' hmem, hsum]

theorem processPeriod_trades (cfg : Config) (d : DayData) (coin : String)
    (cap : ℚ) (p : Nat) (s : BState) :
    ∃ ts, (processPeriod cfg d coin cap p s).tradeHistory = s.tradeHistory ++ ts ∧
      ∀ tr ∈ ts, tr.action = Action.OPEN →
        tr.ticker = coin ∧ tr.value = cap * tr.leverage := by
  by_cases h1 : d.candles.length < p + 2
  · exact ⟨[], by simp [processPeriod, h1], by simp⟩
  by_cases h2 : (lastN (p + 1) d.candles).length < p + 1
  · exact ⟨[], by simp [processPeriod, if_neg h1, h2], by simp⟩
  cases hmatch : lookupKey (coin, p) s.positions with
  | none =>
    simp only [processPeriod, if_neg h1, if_neg h2, hmatch]
    split_ifs with hsig1 hsig2
    · simp only [simulate_open]
      refine ⟨_, rfl, ?_⟩
      intro tr htr _
      simp only [List.mem_singleton] at htr
      subst htr
      exact ⟨rfl, rfl⟩
    · simp only [simulate_open]
      refine ⟨_, rfl, ?_⟩
      intro tr htr _
      simp only [List.mem_singleton] at htr
      subst htr
      exact ⟨rfl, rfl⟩
    · exact ⟨[], by simp, by simp⟩
  | some pos =>
    simp only [processPeriod, if_neg h1, if_neg h2, hmatch]
    split_ifs with hsig1 hsig2
    · simp only [simulate_close, hmatch, Option.getD_some]
      refine ⟨_, rfl, ?_⟩
      intro tr htr hact
      simp only [List.mem_singleton] at htr
      subst htr
      simp at hact
    · simp only [simulate_close, hmatch, Option.getD_some]
      refine ⟨_, rfl, ?_⟩
      intro tr htr hact
      simp only [List.mem_singleton] at htr
      subst htr
      simp at hact
    · exact ⟨[], by simp, by simp⟩

theorem foldl_trades {α : Type} (g : BState → α → BState) (Q : Trade → Prop)
    (l : List α)
    (h : ∀ x ∈ l, ∀ t : BState,
      ∃ ts, (g t x).tradeHistory = t.tradeHistory ++ ts ∧ ∀ tr ∈ ts, Q tr) :
    ∀ s : BState,
      ∃ ts, (l.foldl g s).tradeHistory = s.tradeHistory ++ ts ∧ ∀ tr ∈ ts, Q tr := by
  induction l with
  | nil =>
    intro s
    exact ⟨[], by simp, by simp⟩
  | cons x xs ih =>
    intro s
    obtain ⟨ts1, h1, hq1⟩ := h x (List.mem_cons_self x xs) s
    obtain ⟨ts2, h2, hq2⟩ :=
      ih (fun y hy t => h y (List.mem_cons_of_mem x hy) t) (g s x)
    refine ⟨ts1 ++ ts2, ?_, ?_⟩
    · rw [List.foldl_cons, h2, h1, List.append_assoc]
    · intro tr htr
      rcases List.mem_append.mp htr with hm | hm
      · exact hq1 tr hm
      · exact hq2 tr hm

theorem processCoin_trades (cfg : Config) (d : DayData) (coin : String)
    (s : BState) :
    ∃ ts, (processCoin cfg d coin s).tradeHistory = s.tradeHistory ++ ts ∧
      ∀ tr ∈ ts, tr.action = Action.OPEN →
        tr.ticker = coin ∧
        tr.value = capitalPerPeriod cfg d.sigma * tr.leverage := by
  rw [processCoin]
  split_ifs
  · exact ⟨[], by simp, by simp⟩
  · exact ⟨[], by simp, by simp⟩
  · exact ⟨[], by simp, by simp⟩
  · exact ⟨[], by simp, by simp⟩
  · exact foldl_trades _ _ cfg.donchianPeriods
      (fun p _ t => processPeriod_trades cfg d coin (capitalPerPeriod cfg d.sigma) p t) s

theorem processTick_trades (cfg : Config) (data : String → DayData) (s : BState) :
    ∃ ts, (processTick cfg data s).tradeHistory = s.tradeHistory ++ ts ∧
      ∀ tr ∈ ts, tr.action = Action.OPEN →
        tr.value = capitalPerPeriod cfg ((data tr.ticker).sigma) * tr.leverage := by
  refine foldl_trades _ _ cfg.activeCoins ?_ s
  intro coin _ t
  obtain ⟨ts, hts, hq⟩ := processCoin_trades cfg (data coin) coin t
  refine ⟨ts, hts, ?_⟩
  intro tr htr hop
  obtain ⟨hticker, hval⟩ := hq tr htr hop
  rw [hticker]
  exact hval

theorem processPeriod_keeps {cfg : Config} {d : DayData} {coin : String}
    {cap : ℚ} {p : Nat} {s : BState} {key : PosKey} {pos : Position}
    (h : lookupKey key s.positions = some pos) :
    lookupKey key (processPeriod cfg d coin cap p s).positions = some pos ∨
    lookupKey key (processPeriod cfg d coin cap p s).positions = none := by
  by_cases h1 : d.candles.length < p + 2
  · simp only [processPeriod, if_pos h1]
    exact Or.inl h
  by_cases h2 : (lastN (p + 1) d.candles).length < p + 1
  · simp only [processPeriod, if_neg h1, if_pos h2]
    exact Or.inl h
  cases hmatch : lookupKey (coin, p) s.positions with
  | none =>
    have hne : key ≠ (coin, p) := by
      intro hc
      rw [hc, hmatch] at h
      cases h
    simp only [processPeriod, if_neg h1, if_neg h2, hmatch]
    split_ifs
    · simp only [simulate_open]
      rw [lookup_insert_ne hne]
      exact Or.inl h
    · simp only [simulate_open]
      rw [lookup_insert_ne hne]
      exact Or.inl h
    · exact Or.inl h
  | some pos' =>
    simp only [processPeriod, if_neg h1, if_neg h2, hmatch]
    split_ifs
    · simp only [simulate_close, hmatch, Option.getD_some]
      by_cases hk : key = (coin, p)
      · subst hk
        rw [lookup_erase_self]
        exact Or.inr rfl
      · rw [lookup_erase_ne hk]
        exact Or.inl h
    · simp only [simulate_close, hmatch, Option.getD_some]
      by_cases hk : key = (coin, p)
      · subst hk
        rw [lookup_erase_self]
        exact Or.inr rfl
      · rw [lookup_erase_ne hk]
        exact Or.inl h
    · exact Or.inl h

theorem reachD : Reachable cfgD s2D :=
  Reachable.tick s1D dataB (Reachable.tick (initState cfgD) dataA Reachable.init)

theorem s1D_positions : s1D.positions = [(("BTC", 3), posD)] := by
  norm_num [s1D, dataA, processTick, processCoin, processPeriod, cfgD, dayA,
    initState, baseCapital, capitalPerPeriod, lastN, dailyReturns, channelHigh,
    channelLow, refClose, maxQ, minQ, lastQ, lookupKey, insertKey, eraseKey,
    simulate_open, simulate_close, levFor, posD]

/-- C1: for every reachable state of the backtester, at most one open
Position exists per (asset, period) key — the stored keys are unique, and
for every key the recorded trade actions form a legal OPEN/CLOSE
alternation whose final state matches whether the key holds a position, so
an entry happens only on a flat key, an exit removes the stored Position,
and two opens never occur without an intervening close. -/
theorem C1_single_position_invariant (cfg : Config) (s : BState)
    (h : Reachable cfg s) :
    (s.positions.map Prod.fst).Nodup ∧
    ∀ key : PosKey, runTrail (actionsFor key s.tradeHistory)
        = some (lookupKey key s.positions).isSome := by
  have hInv := inv_reachable h
  exact ⟨hInv.1, hInv.2.2.2⟩

theorem C1_witness :
    (s2D.positions.map Prod.fst).Nodup ∧
    runTrail (actionsFor ("BTC", 3) s2D.tradeHistory)
      = some (lookupKey ("BTC", 3) s2D.positions).isSome :=
  ⟨(C1_single_position_invariant cfgD s2D reachD).1,
   (C1_single_position_invariant cfgD s2D reachD).2 ("BTC", 3)⟩

/-- C2: at every snapshot of a reachable backtest state (with a non-empty,
duplicate-free set of active coins), the sum of the per-asset equity values
returned by `calculate_portfolio_value` equals the total equity it returns
— exactly in the rational model, hence in particular within the claimed
1e-6 relative tolerance. -/
theorem C2_equity_reconciliation (cfg : Config) (priceOf : String → Option ℚ)
    (s : BState) (hne : cfg.activeCoins ≠ []) (hnd : cfg.activeCoins.Nodup)
    (h : Reachable cfg s) :
    (calculate_portfolio_value cfg s priceOf).1
      = sumSnd (calculate_portfolio_value cfg s priceOf).2 ∧
    |sumSnd (calculate_portfolio_value cfg s priceOf).2
        - (calculate_portfolio_value cfg s priceOf).1|
      ≤ |(calculate_portfolio_value cfg s priceOf).1| / 1000000 := by
  have hInv := inv_reachable h
  have hval : ∀ kp ∈ s.positions, kp.1.1 ∈ cfg.activeCoins :=
    fun kp hkp => (hInv.2.1 kp hkp).1
  have hinit : PVInv cfg
      (cfg.strategyInvestment + sumPnl s.tradeHistory,
        perCoinInit cfg s.tradeHistory) :=
    ⟨perCoinInit_keys cfg s.tradeHistory,
     (perCoinInit_sum cfg s.tradeHistory hne hnd hInv.2.2.1).symm⟩
  have hfinal := pv_fold cfg priceOf hnd s.positions hval _ hinit
  have heq : (calculate_portfolio_value cfg s priceOf).1
      = sumSnd (calculate_portfolio_value cfg s priceOf).2 := hfinal.2
  refine ⟨heq, ?_⟩
  rw [← heq, sub_self, abs_zero]
  positivity

theorem C2_witness :
    (calculate_portfolio_value cfgD s2D priceD).1
      = sumSnd (calculate_portfolio_value cfgD s2D priceD).2 ∧
    |sumSnd (calculate_portfolio_value cfgD s2D priceD).2
        - (calculate_portfolio_value cfgD s2D priceD).1|
      ≤ |(calculate_portfolio_value cfgD s2D priceD).1| / 1000000 :=
  C2_equity_reconciliation cfgD priceD s2D (by simp [cfgD]) (by simp [cfgD])
    reachD

/-- C6: every OPEN trade appended during one tick carries
`value = capitalPerPeriod * leverage`, i.e. the capital passed to the entry
is exactly `(strategy_investment / asset_count) * (target_vol / realized_vol)
/ period_count` evaluated on that day's data for the traded asset; and a
single slot evaluation never modifies an already-stored position — it
either leaves it untouched or removes it, so the sizing is frozen at
entry. -/
theorem C6_capital_sizing_frozen (cfg : Config) (data : String → DayData)
    (s : BState) :
    (∀ tr ∈ (processTick cfg data s).tradeHistory.drop s.tradeHistory.length,
      tr.action = Action.OPEN →
      tr.value = capitalPerPeriod cfg ((data tr.ticker).sigma) * tr.leverage)
    ∧ (∀ (d : DayData) (coin : String) (cap : ℚ) (p : Nat) (key : PosKey)
        (pos : Position),
        lookupKey key s.positions = some pos →
        lookupKey key (processPeriod cfg d coin cap p s).positions = some pos ∨
        lookupKey key (processPeriod cfg d coin cap p s).positions = none) := by
  constructor
  · intro tr htr hop
    obtain ⟨ts, hts, hq⟩ := processTick_trades cfg data s
    rw [hts, List.drop_left] at htr
    exact hq tr htr hop
  · intro d coin cap p key pos h
    exact processPeriod_keeps h

theorem C6_witness :
    (openTradeD.value
      = capitalPerPeriod cfgD ((dataA openTradeD.ticker).sigma)
          * openTradeD.leverage)
    ∧ (lookupKey ("BTC", 3) (processPeriod cfgD dayB "BTC" 500 3 s1D).positions
        = some posD ∨
      lookupKey ("BTC", 3) (processPeriod cfgD dayB "BTC" 500 3 s1D).positions
        = none) := by
  constructor
  · refine (C6_capital_sizing_frozen cfgD dataA (initState cfgD)).1
      openTradeD ?_ ?_
    · norm_num [openTradeD, dataA, processTick, processCoin, processPeriod,
        cfgD, dayA, initState, baseCapital, capitalPerPeriod, lastN,
        dailyReturns, channelHigh, channelLow, refClose, maxQ, minQ, lastQ,
        lookupKey, insertKey, eraseKey, simulate_open, simulate_close, levFor,
        junkTrade]
    · norm_num [openTradeD, dataA, processTick, processCoin, processPeriod,
        cfgD, dayA, initState, baseCapital, capitalPerPeriod, lastN,
        dailyReturns, channelHigh, channelLow, refClose, maxQ, minQ, lastQ,
        lookupKey, insertKey, eraseKey, simulate_open, simulate_close, levFor,
        junkTrade]
  · refine (C6_capital_sizing_frozen cfgD dataA s1D).2 dayB "BTC" 500 3
      ("BTC", 3) posD ?_
    rw [s1D_positions]
    simp [lookupKey]

/-- C3 counterexample: an input with 85 daily-return observations and
non-zero volatility, for which the claim demands a computed volatility
value; the live bot's `calculate_volatility` nevertheless fails (its gate
requires `volatility_period` candles, not `volatility_period - 5`
returns). -/
theorem C3_counterexample :
    (dailyReturns closes86).length = 85 ∧ 90 - 5 ≤ 85 ∧
    devSum (dailyReturns closes86) ≠ 0 ∧
    calculate_volatility 90 closes86 = none := by
  refine ⟨?_, by norm_num, ?_, ?_⟩
  · norm_num [closes86, dailyReturns]
  · norm_num [closes86, dailyReturns, devSum, meanQ]
  · norm_num [calculate_volatility, closes86]

/-- C3 amended: the backtester's gate fails exactly when fewer than
`volatility_period - 5` returns are available in the trailing window or the
scaled volatility is zero (so 85 returns compute and 80 fail at
`volatility_period = 90`); the live bot's `calculate_volatility` instead
returns `None` exactly when fewer than `volatility_period` candles are
available — so there an input yielding 85 daily returns fails — and the
zero-volatility skip is applied by its caller. -/
theorem C3_volatility_gate :
    (∀ (vp : Nat) (closes : List ℚ),
      backtestVolOk vp closes = false ↔
        (dailyReturns (lastN (vp + 1) closes)).length < vp - 5 ∨
        devSum (dailyReturns (lastN (vp + 1) closes)) = 0)
    ∧ (∀ (vp : Nat) (closes : List ℚ),
      calculate_volatility vp closes = none ↔
        closes.length = 0 ∨ closes.length < vp)
    ∧ (∀ (vp : Nat) (closes : List ℚ),
      liveVolSkip vp closes = true ↔
        closes.length = 0 ∨ closes.length < vp ∨
        devSum (dailyReturns closes) = 0)
    ∧ backtestVolOk 90 closes86 = true
    ∧ backtestVolOk 90 closes81 = false
    ∧ calculate_volatility 90 closes86 = none := by
  refine ⟨?_, ?_, ?_, ?_, ?_, ?_⟩
  · intro vp closes
    rw [backtestVolOk]
    split_ifs with h1 h2
    · simp [h1]
    · simp [h1, h2]
    · simp [h1, h2]
  · intro vp closes
    rw [calculate_volatility]
    split_ifs with h
    · exact iff_of_true rfl h
    · constructor
      · intro hc
        exact absurd hc (by simp)
      · intro hc
        exact absurd hc h
  · intro vp closes
    rw [liveVolSkip, calculate_volatility]
    split_ifs with h
    · apply iff_of_true rfl
      rcases h with h | h
      · exact Or.inl h
      · exact Or.inr (Or.inl h)
    · push_neg at h
      simp only [decide_eq_true_eq]
      constructor
      · intro hv
        rcases mul_eq_zero.mp hv with hv' | hv'
        · exact Or.inr (Or.inr hv')
        · norm_num at hv'
      · intro hv
        rcases hv with hv | hv | hv
        · exact absurd hv h.1
        · exact absurd hv (by omega)
        · rw [hv]
          ring
  · norm_num [backtestVolOk, closes86, lastN, dailyReturns, devSum, meanQ]
  · norm_num [backtestVolOk, closes81, lastN, dailyReturns]
  · norm_num [calculate_volatility, closes86]

/-- C4 counterexample: for period 3 a window of exactly `3 + 1` candles —
which the claim says must produce a non-null channel — makes
`get_donchian_channel` return all-`None`. -/
theorem C4_counterexample :
    fourCandles.length = 3 + 1 ∧ get_donchian_channel 3 fourCandles = none := by
  constructor
  · norm_num [fourCandles]
  · norm_num [get_donchian_channel, fourCandles]

/-- C4 amended: the minimum candle window producing a non-null channel is
`period + 2` bars — the live `get_donchian_channel` is non-null exactly on
windows of at least `period + 2` candles, and the backtester's period loop
silently skips the (asset, period) slot whenever fewer than `period + 2`
candles are available (so `period + 1` bars, and a fortiori `period` bars,
yield insufficient-data). -/
theorem C4_minimum_window :
    (∀ (p : Nat) (candles : List Candle),
      (get_donchian_channel p candles).isSome = true ↔ p + 2 ≤ candles.length)
    ∧ (∀ (cfg : Config) (d : DayData) (coin : String) (cap : ℚ) (p : Nat)
        (s : BState),
        d.candles.length < p + 2 → processPeriod cfg d coin cap p s = s) := by
  constructor
  · intro p candles
    rw [get_donchian_channel]
    split_ifs with h
    · simp
      omega
    · simp
      omega
  · intro cfg d coin cap p s h
    simp [processPeriod, h]

theorem C4_witness :
    (get_donchian_channel 3 (fourCandles ++ [⟨14, 5, 8⟩])).isSome = true ∧
    processPeriod cfgD ⟨fourCandles, 1⟩ "BTC" 500 3 (initState cfgD)
      = initState cfgD :=
  ⟨(C4_minimum_window.1 3 (fourCandles ++ [⟨14, 5, 8⟩])).mpr
      (by norm_num [fourCandles]),
   C4_minimum_window.2 cfgD ⟨fourCandles, 1⟩ "BTC" 500 3 (initState cfgD)
      (by norm_num [fourCandles])⟩

/-- C5 counterexample: with zero fees the scenario's CLOSE trade records
realized PnL 2500 — `(55 - 50) * 100 * 5` — and not the 25000 the claim
asserts. -/
theorem C5_counterexample :
    Option.map (fun s => s.tradeHistory.map Trade.pnl) c5closed
      = some [0, 2500] ∧ (2500 : ℚ) ≠ 25000 := by
  constructor
  · norm_num [c5closed, c5open, c5base, c5settings, simulate_open,
      simulate_close, lookupKey, insertKey, eraseKey, levFor]
  · norm_num

/-- C5 amended: opening LONG with capital 1000, leverage 5, price 50 yields
amount 100 and notional 5000, with the OPEN trade carrying `pnl = -fee`;
closing at 55 yields realized PnL `(55 - 50) * 100 * 5 = 2500`, with the
CLOSE trade carrying `pnl = 2500` minus the close fee (fee rate times the
close notional 27500). -/
theorem C5_ledger_scenario (fee : ℚ) :
    lookupKey ("X", 20) (c5open fee).positions
      = some ⟨Side.LONG, 100, 50, 5, "X"⟩ ∧
    (c5open fee).tradeHistory
      = [⟨"X", 20, Action.OPEN, Side.LONG, 100, 50, 5000, 5, -(5000 * fee)⟩] ∧
    Option.map BState.tradeHistory (simulate_close fee (c5open fee) ("X", 20) 55)
      = some ((c5open fee).tradeHistory ++
          [⟨"X", 20, Action.CLOSE, Side.LONG, 100, 55, 27500, 5,
            2500 - 27500 * fee⟩]) := by
  refine ⟨?_, ?_, ?_⟩ <;>
    · norm_num [c5open, c5base, c5settings, simulate_open, simulate_close,
        lookupKey, insertKey, eraseKey, levFor]
      try ring_nf

/-- C7: ties do not trigger.  When the reference close exactly equals the
channel upper bound or lower bound no entry fires on a flat slot, and when
it exactly equals the midline no exit fires on an open slot; conversely an
entry fires only on a strict breakout (SHORT additionally requiring the
asset not to be long-only) and an exit only on a strict midline cross in
the position's direction. -/
theorem C7_strict_inequalities (cfg : Config) (d : DayData) (coin : String)
    (cap : ℚ) (p : Nat) (s : BState) :
    (channelLow d p ≤ channelHigh d p → refClose d p = channelHigh d p →
      lookupKey (coin, p) s.positions = none →
      processPeriod cfg d coin cap p s = s)
    ∧ (channelLow d p ≤ channelHigh d p → refClose d p = channelLow d p →
      lookupKey (coin, p) s.positions = none →
      processPeriod cfg d coin cap p s = s)
    ∧ (refClose d p = (channelHigh d p + channelLow d p) / 2 →
      ∀ pos : Position, lookupKey (coin, p) s.positions = some pos →
      processPeriod cfg d coin cap p s = s)
    ∧ (lookupKey (coin, p) s.positions = none →
      processPeriod cfg d coin cap p s ≠ s →
      channelHigh d p < refClose d p ∨
        (cfg.settings.long_only = false ∧ refClose d p < channelLow d p))
    ∧ (∀ pos : Position, lookupKey (coin, p) s.positions = some pos →
      processPeriod cfg d coin cap p s ≠ s →
      (pos.side = Side.LONG ∧
        refClose d p < (channelHigh d p + channelLow d p) / 2) ∨
      (pos.side = Side.SHORT ∧
        (channelHigh d p + channelLow d p) / 2 < refClose d p)) := by
  by_cases h1 : d.candles.length < p + 2
  · have he : processPeriod cfg d coin cap p s = s := by
      simp [processPeriod, h1]
    exact ⟨fun _ _ _ => he, fun _ _ _ => he, fun _ _ _ => he,
      fun _ hne => absurd he hne, fun _ _ hne => absurd he hne⟩
  by_cases h2 : (lastN (p + 1) d.candles).length < p + 1
  · have he : processPeriod cfg d coin cap p s = s := by
      simp [processPeriod, if_neg h1, h2]
    exact ⟨fun _ _ _ => he, fun _ _ _ => he, fun _ _ _ => he,
      fun _ hne => absurd he hne, fun _ _ hne => absurd he hne⟩
  refine ⟨?_, ?_, ?_, ?_, ?_⟩
  · intro hlh heq hflat
    simp only [processPeriod, if_neg h1, if_neg h2, hflat]
    split_ifs with hs1 hs2
    · exact absurd hs1 (by rw [heq]; exact lt_irrefl _)
    · exact absurd hs2.2 (by rw [heq]; exact not_lt.mpr hlh)
    · rfl
  · intro hlh heq hflat
    simp only [processPeriod, if_neg h1, if_neg h2, hflat]
    split_ifs with hs1 hs2
    · exact absurd hs1 (by rw [heq]; exact not_lt.mpr hlh)
    · exact absurd hs2.2 (by rw [heq]; exact lt_irrefl _)
    · rfl
  · intro heq pos hpos
    simp only [processPeriod, if_neg h1, if_neg h2, hpos]
    split_ifs with hs1 hs2
    · exact absurd hs1.2 (by rw [heq]; exact lt_irrefl _)
    · exact absurd hs2.2 (by rw [heq]; exact lt_irrefl _)
    · rfl
  · intro hflat hne
    simp only [processPeriod, if_neg h1, if_neg h2, hflat] at hne
    split_ifs at hne with hs1 hs2
    · exact Or.inl hs1
    · exact Or.inr hs2
    · exact absurd rfl hne
  · intro pos hpos hne
    simp only [processPeriod, if_neg h1, if_neg h2, hpos] at hne
    split_ifs at hne with hs1 hs2
    · exact Or.inl hs1
    · exact Or.inr hs2
    · exact absurd rfl hne

theorem C7_witness :
    channelLow dTie 3 ≤ channelHigh dTie 3 ∧
    refClose dTie 3 = channelHigh dTie 3 ∧
    processPeriod cfgD dTie "BTC" 500 3 (initState cfgD) = initState cfgD := by
  have h1 : channelLow dTie 3 ≤ channelHigh dTie 3 := by
    norm_num [channelLow, channelHigh, dTie, lastN, maxQ, minQ]
  have h2 : refClose dTie 3 = channelHigh dTie 3 := by
    norm_num [refClose, channelHigh, dTie, lastN, maxQ, lastQ]
  exact ⟨h1, h2,
    (C7_strict_inequalities cfgD dTie "BTC" 500 3 (initState cfgD)).1 h1 h2 rfl⟩

/-- C8: live-mode open/close atomicity.  A non-positive fetched price or a
raising order placement leaves the position map and the trade log exactly
as they were; a successful order commits the position-map change and its
log row together. -/
theorem C8_live_atomicity (s : LState) (t : String) (p : Nat) (side : Side)
    (cap : ℚ) (st : CoinSettings) (pd : LPosition) (price : ℚ)
    (o : Option Order) :
    (price ≤ 0 → open_position s t p side cap st price o = s)
    ∧ (price ≤ 0 → close_position s t p pd price o = s)
    ∧ (open_position s t p side cap st price none = s)
    ∧ (close_position s t p pd price none = s)
    ∧ (∀ ord : Order, 0 < price →
        (open_position s t p side cap st price (some ord)).current_positions
          = insertKey (t, p) ⟨side, ord.amount, ord.price, levFor side st⟩
              s.current_positions
        ∧ (open_position s t p side cap st price (some ord)).tradingLog
          = s.tradingLog ++ [⟨t, p, Action.OPEN, side, ord.amount, ord.price,
              ord.cost, levFor side st, 0⟩])
    ∧ (∀ (ord : Order) (pos0 : LPosition), 0 < price →
        lookupKey (t, p) s.current_positions = some pos0 →
        (close_position s t p pd price (some ord)).current_positions
          = eraseKey (t, p) s.current_positions
        ∧ (close_position s t p pd price (some ord)).tradingLog
          = s.tradingLog ++ [⟨t, p, Action.CLOSE, pd.side, ord.amount,
              ord.price, ord.cost, pd.leverage, closePnl pd ord.price⟩]) := by
  refine ⟨?_, ?_, ?_, ?_, ?_, ?_⟩
  · intro hp
    simp [open_position, hp]
  · intro hp
    simp [close_position, hp]
  · by_cases hp : price ≤ 0
    · simp [open_position, hp]
    · simp [open_position, hp]
  · by_cases hp : price ≤ 0
    · simp [close_position, hp]
    · simp [close_position, hp]
  · intro ord hp
    simp [open_position, not_le.mpr hp]
  · intro ord pos0 hp hlook
    simp [close_position, not_le.mpr hp, hlook]

theorem C8_witness :
    open_position lsW "BTC" 5 Side.LONG 100 c5settings 0 (some ordW) = lsW ∧
    close_position lsW "BTC" 5 lposW 100 none = lsW ∧
    ((close_position lsW "BTC" 5 lposW 100 (some ordW)).current_positions
        = eraseKey ("BTC", 5) lsW.current_positions ∧
      (close_position lsW "BTC" 5 lposW 100 (some ordW)).tradingLog
        = lsW.tradingLog ++ [⟨"BTC", 5, Action.CLOSE, lposW.side, ordW.amount,
            ordW.price, ordW.cost, lposW.leverage, closePnl lposW ordW.price⟩]) :=
  ⟨(C8_live_atomicity lsW "BTC" 5 Side.LONG 100 c5settings lposW 0
      (some ordW)).1 (by norm_num),
   (C8_live_atomicity lsW "BTC" 5 Side.LONG 100 c5settings lposW 100
      none).2.2.2.1,
   (C8_live_atomicity lsW "BTC" 5 Side.LONG 100 c5settings lposW 100
      (some ordW)).2.2.2.2.2 ordW lposW (by norm_num) rfl⟩

/-- C9 counterexample: invoking open on a key that already holds a Position
silently replaces the stored Position — no failure, and the previously
stored Position is gone. -/
theorem C9_counterexample :
    (lookupKey ("X", 5) c9s1.positions).isSome = true ∧
    lookupKey ("X", 5) c9s2.positions ≠ lookupKey ("X", 5) c9s1.positions := by
  constructor <;>
    norm_num [c9s1, c9s2, c5base, c5settings, simulate_open, insertKey,
      eraseKey, lookupKey, levFor]

/-- C9 amended: a close on a key with no stored Position raises `KeyError`
— in the backtester `dict.pop` propagates it and aborts (modelled by
`simulate_close` returning `none`); in the live bot the `KeyError` from
`del` is caught by the handler, so the action is aborted with no state
change and no trade record, but nothing propagates.  An open on a key that
already holds a Position, however, silently overwrites the stored Position:
the resulting binding is determined by the new open alone, whatever was
stored before. -/
theorem C9_invalid_transitions :
    (∀ (fee : ℚ) (s : BState) (key : PosKey) (price : ℚ),
      lookupKey key s.positions = none → simulate_close fee s key price = none)
    ∧ (∀ (fee : ℚ) (s : BState) (t : String) (p : Nat) (side : Side)
        (cap : ℚ) (st : CoinSettings) (price : ℚ),
        lookupKey (t, p) (simulate_open fee s t p side cap st price).positions
          = some ⟨side, cap * levFor side st / price, price, levFor side st, t⟩)
    ∧ (∀ (s : LState) (t : String) (p : Nat) (pd : LPosition) (price : ℚ)
        (o : Option Order),
        lookupKey (t, p) s.current_positions = none →
        close_position s t p pd price o = s) := by
  refine ⟨?_, ?_, ?_⟩
  · intro fee s key price h
    simp [simulate_close, h]
  · intro fee s t p side cap st price
    simp only [simulate_open]
    exact lookup_insert_self _ _ _
  · intro s t p pd price o h
    by_cases hp : price ≤ 0
    · simp [close_position, hp]
    · cases o with
      | none => simp [close_position, hp]
      | some ord => simp [close_position, hp, h]

theorem C9_witness :
    simulate_close 0 c5base ("Y", 7) 10 = none ∧
    lookupKey ("X", 5)
        (simulate_open 0 c9s1 "X" 5 Side.LONG 100 c5settings 20).positions
      = some ⟨Side.LONG, 100 * levFor Side.LONG c5settings / 20, 20,
          levFor Side.LONG c5settings, "X"⟩ ∧
    close_position lsEmpty "BTC" 5 lposW 100 (some ordW) = lsEmpty :=
  ⟨C9_invalid_transitions.1 0 c5base ("Y", 7) 10 rfl,
   C9_invalid_transitions.2.1 0 c9s1 "X" 5 Side.LONG 100 c5settings 20,
   C9_invalid_transitions.2.2 lsEmpty "BTC" 5 lposW 100 (some ordW) rfl⟩

/-- C10: the equity valuation never reads the cash balance — two backtester
states identical except in `cash` yield the same total equity and the same
per-asset equity mapping. -/
theorem C10_cash_noninterference (cfg : Config) (priceOf : String → Option ℚ)
    (s : BState) (c : ℚ) :
    calculate_portfolio_value cfg { s with cash := c } priceOf
      = calculate_portfolio_value cfg s priceOf := rfl

end Turtle
